import Mathlib

/-!
Verification of the `seopy-engine` link-audit pipeline (`links_check.py`).

The pipeline functions are shallowly embedded: the HTTP client and the HTML
parser are external collaborators, so page fetching is modelled by an oracle
`fetch : String → Except ε (List Anchor)` (an `Except.error` models a raised
transport exception) and link probing by `net : String → Option Nat`
(`none` models a raised request exception, `some s` a response with HTTP
status `s`).  Python lists become `List`, the `links_to_skip` set becomes a
`List String` used only through membership, and a pandas `DataFrame` becomes
a record of its column names and typed rows.
-/

namespace LinksCheck

/-- Tests whether `needle` is an initial segment of `hay` (on char lists). -/
def subAt : List Char → List Char → Bool
  | [], _ => true
  | _ :: _, [] => false
  | a :: as, b :: bs => a == b && subAt as bs

/-- Tests whether `needle` occurs contiguously anywhere in `hay`. -/
def hasSubL (needle : List Char) : List Char → Bool
  | [] => subAt needle []
  | b :: bs => subAt needle (b :: bs) || hasSubL needle bs

/-- Python's substring membership `sub in s` for strings. -/
def pyIn (sub s : String) : Bool := hasSubL sub.toList s.toList

/-- An HTML anchor as produced by the markup parser: `href` is `none` when
the tag has no `href` attribute (accessing `a["href"]` then raises, which
the classifier's bare `except` swallows). -/
structure Anchor where
  href : Option String
  text : String
deriving DecidableEq, Repr

/-- A provenance triple `[url, href, anchor_text]` as appended by
`create_link_lists`. -/
structure LinkRecord where
  page : String
  href : String
  text : String
deriving DecidableEq, Repr

/-- A row `[link[0], link[1], link[2], broken_link[1]]` of the final report
built by `match_broken_links`. -/
structure ReportRow where
  url : String
  brokenHref : String
  anchorText : String
  status : Nat
deriving DecidableEq, Repr

/-- The pandas `DataFrame` produced by `match_broken_links`, reduced to its
column names and its typed rows. -/
structure PDFrame where
  columns : List String
  rows : List ReportRow
deriving DecidableEq, Repr

/-- Embedding of `create_link_lists` (links_check.py lines 216-228): one pass
over the page's anchors; a missing `href` raises `KeyError`, swallowed by the
bare `except` (the `none` branch); else if the domain occurs in the href and
`"http"` occurs in the href the triple goes to the internal list; else if
`"http"` does not occur the anchor is dropped; else the triple goes to the
external list. -/
def create_link_lists (domain_name url : String) : List Anchor → List LinkRecord × List LinkRecord
  | [] => ([], [])
  | a :: rest =>
    let tail := create_link_lists domain_name url rest
    match a.href with
    | none => tail
    | some h =>
      if pyIn domain_name h && pyIn "http" h then
        (⟨url, h, a.text⟩ :: tail.1, tail.2)
      else if !(pyIn "http" h) then
        tail
      else
        (tail.1, ⟨url, h, a.text⟩ :: tail.2)

/-- The three classification outcomes of the decision order of
`create_link_lists`. -/
inductive LinkClass where
  | internal : LinkClass
  | external : LinkClass
  | discarded : LinkClass
deriving DecidableEq, Repr

/-- Per-anchor classification implicit in the branch structure of
`create_link_lists`. -/
def classifyAnchor (domain_name : String) (a : Anchor) : LinkClass :=
  match a.href with
  | none => .discarded
  | some h =>
    if pyIn domain_name h && pyIn "http" h then .internal
    else if !(pyIn "http" h) then .discarded
    else .external

/-- The LinkRecord an anchor contributes when it is kept. -/
def recordOf (url : String) (a : Anchor) : Option LinkRecord :=
  a.href.map fun h => ⟨url, h, a.text⟩

theorem create_link_lists_eq_filterMap (domain_name url : String) (anchors : List Anchor) :
    create_link_lists domain_name url anchors =
      (anchors.filterMap fun a =>
        if classifyAnchor domain_name a = .internal then recordOf url a else none,
       anchors.filterMap fun a =>
        if classifyAnchor domain_name a = .external then recordOf url a else none) := by
  induction anchors with
  | nil => rfl
  | cons a rest ih =>
    rw [List.filterMap_cons, List.filterMap_cons]
    cases ha : a.href with
    | none =>
      have hcl : classifyAnchor domain_name a = LinkClass.discarded := by
        simp [classifyAnchor, ha]
      rw [hcl]
      simp only [create_link_lists, ha, reduceCtorEq, if_neg, ite_false]
      exact ih
    | some h =>
      by_cases h1 : (pyIn domain_name h && pyIn "http" h) = true
      · have hcl : classifyAnchor domain_name a = LinkClass.internal := by
          simp [classifyAnchor, ha, h1]
        rw [hcl]
        simp only [create_link_lists, ha, h1, if_true, reduceCtorEq, ite_false, ite_true,
          recordOf, Option.map_some', ih]
      · by_cases h2 : (!(pyIn "http" h)) = true
        · have hcl : classifyAnchor domain_name a = LinkClass.discarded := by
            simp [classifyAnchor, ha, h1, h2]
          rw [hcl]
          simp only [create_link_lists, ha, h1, h2, if_false, ite_false, ite_true,
            reduceCtorEq]
          exact ih
        · have hcl : classifyAnchor domain_name a = LinkClass.external := by
            simp [classifyAnchor, ha, h1, h2]
          rw [hcl]
          simp only [create_link_lists, ha, h1, h2, if_false, ite_false, ite_true,
            reduceCtorEq, recordOf, Option.map_some', ih]

/-- Embedding of `map_anchors_to_url` (links_check.py lines 148-165): one GET
per page with no `try`, so a raised transport error (`Except.error`)
propagates and aborts the whole harvest; on success the insertion-ordered
dict is an association list. -/
def map_anchors_to_url {ε : Type} (fetch : String → Except ε (List Anchor)) :
    List String → Except ε (List (String × List Anchor))
  | [] => .ok []
  | url :: rest =>
    match fetch url with
    | .error e => .error e
    | .ok url_anchors =>
      match map_anchors_to_url fetch rest with
      | .error e => .error e
      | .ok tail => .ok ((url, url_anchors) :: tail)

/-- Embedding of `get_all_links` (links_check.py lines 270-281): harvest all
pages, then concatenate the per-page internal and external lists in page
order. -/
def get_all_links {ε : Type} (domain_name : String) (fetch : String → Except ε (List Anchor))
    (unqiue_urls : List String) : Except ε (List LinkRecord × List LinkRecord) :=
  match map_anchors_to_url fetch unqiue_urls with
  | .error e => .error e
  | .ok url_anchor_maps =>
    .ok (url_anchor_maps.foldl
      (fun acc p =>
        let r := create_link_lists domain_name p.1 p.2
        (acc.1 ++ r.1, acc.2 ++ r.2))
      ([], []))

/-- Embedding of the loop of `filter_unique_hrefs` (links_check.py lines
317-324): `acc` is the `unique_hrefs` list built so far; a href already in it
is skipped, otherwise it is appended at the end. -/
def fuhLoop (acc : List String) : List LinkRecord → List String
  | [] => acc
  | link :: rest =>
    if link.href ∈ acc then fuhLoop acc rest
    else fuhLoop (acc ++ [link.href]) rest

/-- Embedding of `filter_unique_hrefs` (links_check.py lines 283-324). -/
def filter_unique_hrefs (link_groups : List LinkRecord) : List String :=
  fuhLoop [] link_groups

/-- Loop body of `identify_broken_links` (links_check.py lines 373-387):
for one link, `net link = some s` models a response with status `s` and
`net link = none` a raised request error; a 200 response appends nothing, a
non-200 response appends `[link, status]`, and the `except` branch appends
`[link, 0]`. -/
def iblStep (net : String → Option Nat) (broken_link_list : List (String × Nat))
    (link : String) : List (String × Nat) :=
  match net link with
  | some status_code =>
    if status_code ≠ 200 then broken_link_list ++ [(link, status_code)]
    else broken_link_list
  | none => broken_link_list ++ [(link, 0)]

/-- Embedding of `identify_broken_links` (links_check.py lines 370-389): fold
`iblStep` over the links starting from the empty list. -/
def identify_broken_links (net : String → Option Nat) (unique_links : List String) :
    List (String × Nat) :=
  unique_links.foldl (iblStep net) []

/-- Embedding of the inner loop of `match_broken_links` (links_check.py lines
442-449) for one `link`.  The Python guard is
`(link[1] in broken_link) and (link[1] not in links_to_skip)` where
`broken_link` is the two-element list `[href, status]`; since `link[1]` is a
string and `status` an int, list membership there is equality with the href
component, which the typed embedding states directly.  The `links_to_skip`
set is modelled as a list used only through membership. -/
def mblInner (link : LinkRecord) :
    List (String × Nat) → List ReportRow → List String → List ReportRow × List String
  | [], acc, skip => (acc, skip)
  | broken_link :: bs, acc, skip =>
    if link.href = broken_link.1 ∧ link.href ∉ skip then
      mblInner link bs (acc ++ [⟨link.page, link.href, link.text, broken_link.2⟩])
        (link.href :: skip)
    else
      mblInner link bs acc skip

/-- Embedding of the outer loop of `match_broken_links` (links_check.py lines
441-449) over `all_website_links`, threading the accumulated rows and the
`links_to_skip` set. -/
def mblOuter (broken_links : List (String × Nat)) :
    List LinkRecord → List ReportRow → List String → List ReportRow × List String
  | [], acc, skip => (acc, skip)
  | link :: ls, acc, skip =>
    let p := mblInner link broken_links acc skip
    mblOuter broken_links ls p.1 p.2

/-- Embedding of `match_broken_links` (links_check.py lines 392-453): run the
nested loops from an empty row list and empty skip set, and wrap the rows in
a DataFrame with the four fixed column names. -/
def match_broken_links (broken_links : List (String × Nat))
    (all_website_links : List LinkRecord) : PDFrame :=
  ⟨["URL", "Broken Link URL", "Anchor Text", "Status Code"],
   (mblOuter broken_links all_website_links [] []).1⟩

/-- Embedding of the `__main__` pipeline of links_check.py (lines 470-486)
after the sitemap stage: `filtered_pages` stands for one concrete iteration
order of the deduplicated page set `filter_unique_urls` returns (Python set
iteration order is unspecified, so it is an explicit input here). -/
def run_pipeline {ε : Type} (domain_name : String)
    (fetch : String → Except ε (List Anchor)) (net : String → Option Nat)
    (filtered_pages : List String) : Except ε PDFrame :=
  match get_all_links domain_name fetch filtered_pages with
  | .error e => .error e
  | .ok links =>
    let hrefs := filter_unique_hrefs (links.1 ++ links.2)
    let b_links := identify_broken_links net hrefs
    .ok (match_broken_links b_links (links.1 ++ links.2))

/-- Status of the first broken entry whose href component is `h`. -/
def findStatus (h : String) (broken : List (String × Nat)) : Option Nat :=
  (broken.find? fun b => b.1 == h).map Prod.snd

/-- Keeps, for each href value not in `seen`, only the first LinkRecord
carrying it. -/
def firstPerHref (seen : List String) : List LinkRecord → List LinkRecord
  | [] => []
  | l :: ls =>
    if l.href ∈ seen then firstPerHref seen ls
    else l :: firstPerHref (l.href :: seen) ls

/-- The report row a LinkRecord produces when its href is broken with status
`st`. -/
def rowOf (l : LinkRecord) (st : Nat) : ReportRow := ⟨l.page, l.href, l.text, st⟩

/-- Rows the matcher emits starting from skip set `skip`: one row per
LinkRecord whose href is new and matches a broken entry, with the status of
the first matching broken entry. -/
def matchedAux (broken : List (String × Nat)) (skip : List String) :
    List LinkRecord → List ReportRow
  | [] => []
  | l :: ls =>
    if l.href ∈ skip then matchedAux broken skip ls
    else
      match broken.find? (fun b => b.1 == l.href) with
      | none => matchedAux broken skip ls
      | some b => rowOf l b.2 :: matchedAux broken (l.href :: skip) ls

/-- Final skip set of the matcher run started from `skip`. -/
def skipAux (broken : List (String × Nat)) (skip : List String) :
    List LinkRecord → List String
  | [] => skip
  | l :: ls =>
    if l.href ∈ skip then skipAux broken skip ls
    else
      match broken.find? (fun b => b.1 == l.href) with
      | none => skipAux broken skip ls
      | some _ => skipAux broken (l.href :: skip) ls

theorem mblInner_spec (link : LinkRecord) (broken : List (String × Nat))
    (acc : List ReportRow) (skip : List String) :
    mblInner link broken acc skip =
      if link.href ∈ skip then (acc, skip)
      else
        match broken.find? (fun b => b.1 == link.href) with
        | none => (acc, skip)
        | some b => (acc ++ [rowOf link b.2], link.href :: skip) := by
  induction broken generalizing acc skip with
  | nil => by_cases hs : link.href ∈ skip <;> simp [mblInner, hs]
  | cons b bs ih =>
    by_cases hs : link.href ∈ skip
    · have hcond : ¬(link.href = b.1 ∧ link.href ∉ skip) := fun hc => hc.2 hs
      simp only [mblInner, if_neg hcond, ih, if_pos hs]
    · by_cases he : link.href = b.1
      · have hcond : link.href = b.1 ∧ link.href ∉ skip := ⟨he, hs⟩
        have hp : (b.1 == link.href) = true := by simp [he]
        have hfind : List.find? (fun x => x.1 == link.href) (b :: bs) = some b :=
          List.find?_cons_of_pos _ hp
        rw [hfind]
        simp only [mblInner, if_pos hcond, ih, if_pos (List.mem_cons_self _ _)]
        rw [if_neg hs]
        simp [rowOf]
      · have hcond : ¬(link.href = b.1 ∧ link.href ∉ skip) := fun hc => he hc.1
        have hp : ¬((b.1 == link.href) = true) := by
          simp only [beq_iff_eq]
          exact fun hb => he hb.symm
        have hfind : List.find? (fun x => x.1 == link.href) (b :: bs)
            = List.find? (fun x => x.1 == link.href) bs :=
          List.find?_cons_of_neg _ hp
        rw [hfind]
        simp only [mblInner, if_neg hcond, ih, if_neg hs]

theorem mblOuter_spec (broken : List (String × Nat)) (ls : List LinkRecord)
    (acc : List ReportRow) (skip : List String) :
    mblOuter broken ls acc skip =
      (acc ++ matchedAux broken skip ls, skipAux broken skip ls) := by
  induction ls generalizing acc skip with
  | nil => simp [mblOuter, matchedAux, skipAux]
  | cons l ls ih =>
    rw [mblOuter, mblInner_spec]
    by_cases hs : l.href ∈ skip
    · simp only [if_pos hs, matchedAux, skipAux, ih]
    · cases hf : broken.find? (fun b => b.1 == l.href) with
      | none => simp only [if_neg hs, hf, matchedAux, skipAux, ih]
      | some b =>
        simp only [if_neg hs, hf, matchedAux, skipAux, ih, List.append_assoc,
          List.singleton_append]

theorem match_rows_eq_matchedAux (broken : List (String × Nat)) (links : List LinkRecord) :
    (match_broken_links broken links).rows = matchedAux broken [] links := by
  simp [match_broken_links, mblOuter_spec]

theorem matchedAux_eq_filterMap (broken : List (String × Nat)) (ls : List LinkRecord)
    (s t : List String) (hst : ∀ h, h ∈ s → h ∈ t)
    (hts : ∀ h, h ∈ t → h ∈ s ∨ broken.find? (fun b => b.1 == h) = none) :
    matchedAux broken s ls =
      (firstPerHref t ls).filterMap
        (fun l => (findStatus l.href broken).map (rowOf l)) := by
  induction ls generalizing s t with
  | nil => simp [matchedAux, firstPerHref]
  | cons l ls ih =>
    by_cases hsl : l.href ∈ s
    · rw [matchedAux, if_pos hsl, firstPerHref, if_pos (hst _ hsl)]
      exact ih s t hst hts
    · by_cases htl : l.href ∈ t
      · have hnone : broken.find? (fun b => b.1 == l.href) = none :=
          (hts _ htl).resolve_left hsl
        rw [matchedAux, if_neg hsl, hnone, firstPerHref, if_pos htl]
        exact ih s t hst hts
      · rw [matchedAux, if_neg hsl, firstPerHref, if_neg htl, List.filterMap_cons]
        cases hf : broken.find? (fun b => b.1 == l.href) with
        | none =>
          have hfs : findStatus l.href broken = none := by simp [findStatus, hf]
          simp only [hfs, Option.map_none']
          exact ih s (l.href :: t) (fun h hh => List.mem_cons_of_mem _ (hst _ hh))
            (fun h hh => by
              rcases List.mem_cons.mp hh with he | hh
              · exact Or.inr (he ▸ hf)
              · exact hts _ hh)
        | some b =>
          have hfs : findStatus l.href broken = some b.2 := by simp [findStatus, hf]
          simp only [hfs, Option.map_some']
          rw [ih (l.href :: s) (l.href :: t)
            (fun h hh => by
              rcases List.mem_cons.mp hh with he | hh
              · exact he ▸ List.mem_cons_self _ _
              · exact List.mem_cons_of_mem _ (hst _ hh))
            (fun h hh => by
              rcases List.mem_cons.mp hh with he | hh
              · exact Or.inl (he ▸ List.mem_cons_self _ _)
              · rcases hts _ hh with h1 | h1
                · exact Or.inl (List.mem_cons_of_mem _ h1)
                · exact Or.inr h1)]

theorem match_rows_eq (broken : List (String × Nat)) (links : List LinkRecord) :
    (match_broken_links broken links).rows =
      (firstPerHref [] links).filterMap
        (fun l => (findStatus l.href broken).map (rowOf l)) := by
  rw [match_rows_eq_matchedAux]
  exact matchedAux_eq_filterMap broken links [] [] (fun _ h => h) (fun _ h => absurd h (by simp))

/-- First-seen deduplication of a string list relative to the values already
in `seen`. -/
def dedupFS (seen : List String) : List String → List String
  | [] => []
  | h :: hs => if h ∈ seen then dedupFS seen hs else h :: dedupFS (h :: seen) hs

theorem dedupFS_congr (l : List String) (s₁ s₂ : List String)
    (hs : ∀ x, x ∈ s₁ ↔ x ∈ s₂) : dedupFS s₁ l = dedupFS s₂ l := by
  induction l generalizing s₁ s₂ with
  | nil => rfl
  | cons h hs' ih =>
    by_cases hm : h ∈ s₁
    · rw [dedupFS, if_pos hm, dedupFS, if_pos ((hs h).mp hm)]
      exact ih s₁ s₂ hs
    · rw [dedupFS, if_neg hm, dedupFS, if_neg (fun hc => hm ((hs h).mpr hc))]
      exact congrArg _ (ih _ _ (fun x => by simp [hs x]))

theorem mem_dedupFS (l : List String) (seen : List String) (x : String) :
    x ∈ dedupFS seen l ↔ x ∈ l ∧ x ∉ seen := by
  induction l generalizing seen with
  | nil => simp [dedupFS]
  | cons h hs ih =>
    by_cases hm : h ∈ seen
    · rw [dedupFS, if_pos hm, ih]
      constructor
      · rintro ⟨h1, h2⟩; exact ⟨List.mem_cons_of_mem _ h1, h2⟩
      · rintro ⟨h1, h2⟩
        rcases List.mem_cons.mp h1 with he | h1
        · exact absurd (he ▸ hm) h2
        · exact ⟨h1, h2⟩
    · rw [dedupFS, if_neg hm]
      simp only [List.mem_cons, ih, List.mem_cons]
      constructor
      · rintro (he | ⟨h1, h2⟩)
        · exact ⟨Or.inl he, he ▸ hm⟩
        · exact ⟨Or.inr h1, fun hc => h2 (Or.inr hc)⟩
      · rintro ⟨he | h1, h2⟩
        · exact Or.inl he
        · by_cases hx : x = h
          · exact Or.inl hx
          · exact Or.inr ⟨h1, fun hc => hc.elim hx h2⟩

theorem dedupFS_nodup (l : List String) (seen : List String) :
    (dedupFS seen l).Nodup := by
  induction l generalizing seen with
  | nil => simp [dedupFS]
  | cons h hs ih =>
    by_cases hm : h ∈ seen
    · rw [dedupFS, if_pos hm]; exact ih seen
    · rw [dedupFS, if_neg hm]
      refine List.nodup_cons.mpr ⟨fun hc => ?_, ih _⟩
      exact ((mem_dedupFS _ _ _).mp hc).2 (List.mem_cons_self _ _)

theorem dedupFS_sublist (l : List String) (seen : List String) :
    (dedupFS seen l).Sublist l := by
  induction l generalizing seen with
  | nil => simp [dedupFS]
  | cons h hs ih =>
    by_cases hm : h ∈ seen
    · rw [dedupFS, if_pos hm]; exact (ih seen).cons _
    · rw [dedupFS, if_neg hm]; exact (ih _).cons₂ _

theorem firstPerHref_map_href (ls : List LinkRecord) (seen : List String) :
    (firstPerHref seen ls).map LinkRecord.href = dedupFS seen (ls.map LinkRecord.href) := by
  induction ls generalizing seen with
  | nil => rfl
  | cons l ls ih =>
    simp only [List.map_cons]
    by_cases hm : l.href ∈ seen
    · rw [firstPerHref, if_pos hm, dedupFS, if_pos hm]
      exact ih seen
    · rw [firstPerHref, if_neg hm, dedupFS, if_neg hm, List.map_cons]
      exact congrArg _ (ih _)

theorem firstPerHref_sublist (ls : List LinkRecord) (seen : List String) :
    (firstPerHref seen ls).Sublist ls := by
  induction ls generalizing seen with
  | nil => simp [firstPerHref]
  | cons l ls ih =>
    by_cases hm : l.href ∈ seen
    · rw [firstPerHref, if_pos hm]; exact (ih seen).cons _
    · rw [firstPerHref, if_neg hm]; exact (ih _).cons₂ _

theorem fuhLoop_eq (ls : List LinkRecord) (acc : List String) :
    fuhLoop acc ls = acc ++ dedupFS acc (ls.map LinkRecord.href) := by
  induction ls generalizing acc with
  | nil => simp [fuhLoop, dedupFS]
  | cons l ls ih =>
    by_cases hm : l.href ∈ acc
    · rw [fuhLoop, if_pos hm, List.map_cons, dedupFS, if_pos hm]
      exact ih acc
    · rw [fuhLoop, if_neg hm, List.map_cons, dedupFS, if_neg hm, ih]
      rw [dedupFS_congr (ls.map LinkRecord.href) (acc ++ [l.href]) (l.href :: acc)
        (fun x => by simp [or_comm])]
      simp

theorem filter_unique_hrefs_eq (links : List LinkRecord) :
    filter_unique_hrefs links = dedupFS [] (links.map LinkRecord.href) := by
  rw [filter_unique_hrefs, fuhLoop_eq, List.nil_append]

/-- Modelled from the spec's words in section 4.5: keep each distinct href at
the position of its first occurrence, removing its later duplicates. -/
def specFirstSeen : List String → List String
  | [] => []
  | h :: hs => h :: specFirstSeen (hs.filter (fun x => !(x == h)))
termination_by l => l.length
decreasing_by
  simp only [List.length_cons]
  exact Nat.lt_succ_of_le (List.length_filter_le _ _)

theorem dedupFS_eq_specFirstSeen_aux (n : Nat) :
    ∀ (l : List String), l.length ≤ n → ∀ (seen : List String),
      dedupFS seen l = specFirstSeen (l.filter (fun x => !(decide (x ∈ seen)))) := by
  induction n with
  | zero =>
    intro l hl seen
    have hnil : l = [] := List.eq_nil_of_length_eq_zero (Nat.le_zero.mp hl)
    subst hnil
    simp [dedupFS, specFirstSeen]
  | succ n ih =>
    intro l hl seen
    cases l with
    | nil => simp [dedupFS, specFirstSeen]
    | cons h hs =>
      have hlen : hs.length ≤ n := by
        simp only [List.length_cons] at hl
        omega
      by_cases hm : h ∈ seen
      · rw [dedupFS, if_pos hm, List.filter_cons_of_neg (by simp [hm])]
        exact ih hs hlen seen
      · rw [dedupFS, if_neg hm, List.filter_cons_of_pos (by simp [hm]), specFirstSeen]
        refine congrArg _ ?_
        rw [List.filter_filter]
        have hpred : ∀ x ∈ hs,
            ((!(x == h)) && (!(decide (x ∈ seen)))) = (!(decide (x ∈ h :: seen))) := by
          intro x _
          by_cases hx : x = h
          · simp [hx]
          · by_cases hx2 : x ∈ seen <;> simp [hx, hx2]
        rw [List.filter_congr hpred]
        exact ih hs hlen (h :: seen)

theorem dedupFS_eq_specFirstSeen (l : List String) (seen : List String) :
    dedupFS seen l = specFirstSeen (l.filter (fun x => !(decide (x ∈ seen)))) :=
  dedupFS_eq_specFirstSeen_aux l.length l (Nat.le_refl _) seen

theorem classifyAnchor_total (domain_name : String) (a : Anchor) :
    classifyAnchor domain_name a = .internal ∨ classifyAnchor domain_name a = .external ∨
      classifyAnchor domain_name a = .discarded := by
  cases hc : classifyAnchor domain_name a with
  | internal => exact Or.inl rfl
  | external => exact Or.inr (Or.inl rfl)
  | discarded => exact Or.inr (Or.inr rfl)

theorem classifyAnchor_cases (domain_name : String) (a : Anchor) (h : String)
    (ha : a.href = some h) :
    (classifyAnchor domain_name a = .internal ↔
      pyIn domain_name h = true ∧ pyIn "http" h = true) ∧
    (classifyAnchor domain_name a = .discarded ↔ pyIn "http" h = false) ∧
    (classifyAnchor domain_name a = .external ↔
      pyIn domain_name h = false ∧ pyIn "http" h = true) := by
  by_cases h1 : pyIn domain_name h = true <;> by_cases h2 : pyIn "http" h = true <;>
    simp [classifyAnchor, ha, h1, h2] <;>
    simp [Bool.not_eq_true] at h1 h2 <;> simp [h1, h2]

/-- C1: every anchor is assigned exactly one of internal, external, discarded
by the decision order of `create_link_lists`: missing href (or raising
access) is discarded; else domain-in-href and "http"-in-href is internal;
else no "http" is discarded; else external.  The four example anchors for
domain "example.com" behave as the spec's section 8 states. -/
theorem C1_classifier_decision_order :
    (∀ (domain_name url : String) (anchors : List Anchor),
      create_link_lists domain_name url anchors =
        (anchors.filterMap fun a =>
          if classifyAnchor domain_name a = .internal then recordOf url a else none,
         anchors.filterMap fun a =>
          if classifyAnchor domain_name a = .external then recordOf url a else none))
    ∧ (∀ (domain_name : String) (a : Anchor),
        classifyAnchor domain_name a = .internal ∨ classifyAnchor domain_name a = .external ∨
          classifyAnchor domain_name a = .discarded)
    ∧ (∀ (domain_name : String) (a : Anchor) (h : String), a.href = some h →
        (classifyAnchor domain_name a = .internal ↔
          pyIn domain_name h = true ∧ pyIn "http" h = true) ∧
        (classifyAnchor domain_name a = .discarded ↔ pyIn "http" h = false) ∧
        (classifyAnchor domain_name a = .external ↔
          pyIn domain_name h = false ∧ pyIn "http" h = true))
    ∧ (∀ (domain_name url : String) (a : Anchor), a.href = none →
        classifyAnchor domain_name a = .discarded ∧
        create_link_lists domain_name url [a] = ([], []))
    ∧ create_link_lists "example.com" "https://example.com"
        [⟨some "https://example.com/page1", "t"⟩]
        = ([⟨"https://example.com", "https://example.com/page1", "t"⟩], [])
    ∧ create_link_lists "example.com" "https://example.com" [⟨some "https://other.com", "t"⟩]
        = ([], [⟨"https://example.com", "https://other.com", "t"⟩])
    ∧ create_link_lists "example.com" "https://example.com" [⟨some "/relative/path", "t"⟩]
        = ([], [])
    ∧ create_link_lists "example.com" "https://example.com" [⟨none, "t"⟩] = ([], []) := by
  refine ⟨create_link_lists_eq_filterMap, classifyAnchor_total, classifyAnchor_cases,
    ?_, by decide, by decide, by decide, by decide⟩
  intro domain_name url a ha
  exact ⟨by simp [classifyAnchor, ha], by simp [create_link_lists, ha]⟩

theorem C1_classifier_decision_order_witness :
    ((⟨none, "t"⟩ : Anchor).href = none) ∧
    classifyAnchor "example.com" ⟨none, "t"⟩ = .discarded ∧
    create_link_lists "example.com" "https://example.com" [⟨none, "t"⟩] = ([], []) :=
  ⟨rfl,
   (C1_classifier_decision_order.2.2.2.1 "example.com" "https://example.com" ⟨none, "t"⟩ rfl).1,
   (C1_classifier_decision_order.2.2.2.1 "example.com" "https://example.com" ⟨none, "t"⟩ rfl).2⟩

/-- C6: classification is substring-based, not URL parsing: any href
containing both "http" and the domain anywhere is classified internal, even
when the domain only occurs in the query string of an unrelated host. -/
theorem C6_substring_match_internal (domain_name url text h : String)
    (hdom : pyIn domain_name h = true) (hhttp : pyIn "http" h = true) :
    classifyAnchor domain_name ⟨some h, text⟩ = .internal ∧
    create_link_lists domain_name url [⟨some h, text⟩] = ([⟨url, h, text⟩], []) := by
  constructor
  · simp [classifyAnchor, hdom, hhttp]
  · simp [create_link_lists, hdom, hhttp]

theorem C6_substring_match_internal_witness :
    pyIn "example.com" "https://other.com/?q=example.com" = true ∧
    pyIn "http" "https://other.com/?q=example.com" = true ∧
    classifyAnchor "example.com" ⟨some "https://other.com/?q=example.com", "t"⟩ = .internal ∧
    create_link_lists "example.com" "https://page.example"
        [⟨some "https://other.com/?q=example.com", "t"⟩]
      = ([⟨"https://page.example", "https://other.com/?q=example.com", "t"⟩], []) :=
  ⟨by decide, by decide,
   (C6_substring_match_internal "example.com" "https://page.example" "t"
     "https://other.com/?q=example.com" (by decide) (by decide)).1,
   (C6_substring_match_internal "example.com" "https://page.example" "t"
     "https://other.com/?q=example.com" (by decide) (by decide)).2⟩

/-- C5: the unique-href filter returns the input's href values deduplicated
first-seen: the result equals the spec's first-occurrence dedup, contains no
duplicates, is a sublist of the href sequence (so it preserves order and
positions of first occurrences), keeps exactly the hrefs of the input, and
maps the spec's example to ["a", "b"]. -/
theorem C5_unique_href_filter (links : List LinkRecord) :
    filter_unique_hrefs links = specFirstSeen (links.map LinkRecord.href) ∧
    (filter_unique_hrefs links).Nodup ∧
    (filter_unique_hrefs links).Sublist (links.map LinkRecord.href) ∧
    (∀ x, x ∈ filter_unique_hrefs links ↔ x ∈ links.map LinkRecord.href) ∧
    filter_unique_hrefs [⟨"p1", "a", ""⟩, ⟨"p2", "b", ""⟩, ⟨"p3", "a", ""⟩] = ["a", "b"] := by
  refine ⟨?_, ?_, ?_, ?_, by decide⟩
  · rw [filter_unique_hrefs_eq, dedupFS_eq_specFirstSeen]
    congr 1
    simp
  · rw [filter_unique_hrefs_eq]
    exact dedupFS_nodup _ _
  · rw [filter_unique_hrefs_eq]
    exact dedupFS_sublist _ _
  · intro x
    rw [filter_unique_hrefs_eq, mem_dedupFS]
    simp

theorem identify_broken_links_eq_flatMap (net : String → Option Nat)
    (unique_links : List String) :
    identify_broken_links net unique_links =
      unique_links.flatMap (fun href =>
        match net href with
        | none => [(href, 0)]
        | some status => if status = 200 then [] else [(href, status)]) := by
  have hstep : ∀ (acc : List (String × Nat)) (link : String),
      iblStep net acc link = acc ++ (match net link with
        | none => [(link, 0)]
        | some status => if status = 200 then [] else [(link, status)]) := by
    intro acc link
    cases hn : net link with
    | none => simp [iblStep, hn]
    | some s =>
      by_cases hs : s = 200
      · simp [iblStep, hn, hs]
      · simp [iblStep, hn, hs]
  have haux : ∀ (ls : List String) (acc : List (String × Nat)),
      ls.foldl (iblStep net) acc
      = acc ++ ls.flatMap (fun href =>
          match net href with
          | none => [(href, 0)]
          | some status => if status = 200 then [] else [(href, status)]) := by
    intro ls
    induction ls with
    | nil => simp
    | cons l ls ih =>
      intro acc
      rw [List.foldl_cons, ih, hstep, List.flatMap_cons, List.append_assoc]
  rw [identify_broken_links, haux, List.nil_append]

/-- C3: the liveness prober maps each href independently: a 200 response
records nothing, a non-200 response records the pair (href, status), and a
raised request error records the sentinel pair (href, 0). -/
theorem C3_prober_classification (net : String → Option Nat) (unique_links : List String) :
    identify_broken_links net unique_links =
      unique_links.flatMap (fun href =>
        match net href with
        | none => [(href, 0)]
        | some status => if status = 200 then [] else [(href, status)]) :=
  identify_broken_links_eq_flatMap net unique_links

/-- C7: a transport error raised while fetching any page of the harvest list
is not caught: the whole harvest returns that failure and no page-to-anchors
mapping is produced. -/
theorem C7_harvest_error_propagates {ε : Type} (fetch : String → Except ε (List Anchor))
    (unqiue_urls : List String)
    (hfail : ∃ u ∈ unqiue_urls, ∃ e, fetch u = .error e) :
    ∃ e, map_anchors_to_url fetch unqiue_urls = .error e := by
  induction unqiue_urls with
  | nil =>
    rcases hfail with ⟨u, hu, _⟩
    cases hu
  | cons u us ih =>
    rcases hfail with ⟨v, hv, e, he⟩
    cases hfu : fetch u with
    | error e2 => exact ⟨e2, by simp [map_anchors_to_url, hfu]⟩
    | ok as =>
      rcases List.mem_cons.mp hv with rfl | hv2
      · rw [hfu] at he
        cases he
      · rcases ih ⟨v, hv2, e, he⟩ with ⟨e2, he2⟩
        exact ⟨e2, by simp [map_anchors_to_url, hfu, he2]⟩

/-- Oracle for the C7 witness: one page whose fetch raises. -/
def fetchFail : String → Except String (List Anchor) := fun u =>
  if u = "https://bad.example" then .error "connection refused" else .ok []

theorem C7_harvest_error_propagates_witness :
    (∃ u ∈ ["https://good.example", "https://bad.example"], ∃ e, fetchFail u = .error e) ∧
    ∃ e, map_anchors_to_url fetchFail ["https://good.example", "https://bad.example"]
      = .error e := by
  have hfail : ∃ u ∈ ["https://good.example", "https://bad.example"], ∃ e,
      fetchFail u = .error e :=
    ⟨"https://bad.example", by simp, "connection refused", rfl⟩
  exact ⟨hfail, C7_harvest_error_propagates fetchFail _ hfail⟩

theorem filterMap_rows_map_href (broken : List (String × Nat)) (L : List LinkRecord) :
    (L.filterMap (fun l => (findStatus l.href broken).map (rowOf l))).map ReportRow.brokenHref
      = (L.filter (fun l => (findStatus l.href broken).isSome)).map LinkRecord.href := by
  induction L with
  | nil => rfl
  | cons l L ih =>
    cases hf : findStatus l.href broken with
    | none => simp [List.filterMap_cons, List.filter_cons, hf, ih]
    | some st => simp [List.filterMap_cons, List.filter_cons, hf, ih, rowOf]

theorem findStatus_isSome_iff (broken : List (String × Nat)) (h : String) :
    (findStatus h broken).isSome = true ↔ h ∈ broken.map Prod.fst := by
  rw [findStatus]
  cases hfind : broken.find? (fun b => b.1 == h) with
  | none =>
    simp only [Option.map_none', Option.isSome_none]
    constructor
    · intro hcc
      cases hcc
    · intro hmem
      rcases List.mem_map.mp hmem with ⟨b, hb, hb1⟩
      have hsome : (broken.find? (fun x => x.1 == h)).isSome :=
        List.find?_isSome.mpr ⟨b, hb, by simp [hb1]⟩
      rw [hfind] at hsome
      cases hsome
  | some b =>
    have h1 : b.1 = h := by simpa using List.find?_some hfind
    have h2 := List.mem_of_find?_eq_some hfind
    simp only [Option.map_some', Option.isSome_some]
    constructor
    · intro _
      exact List.mem_map.mpr ⟨b, h2, h1⟩
    · intro _
      trivial

theorem rows_map_href_eq (broken : List (String × Nat)) (links : List LinkRecord) :
    (match_broken_links broken links).rows.map ReportRow.brokenHref
      = (dedupFS [] (links.map LinkRecord.href)).filter
          (fun h => (findStatus h broken).isSome) := by
  rw [match_rows_eq, filterMap_rows_map_href, ← firstPerHref_map_href, List.filter_map]
  rfl

/-- C2: the matcher emits one ReportRow for each LinkRecord whose href equals
some BrokenResult's href and has not been emitted before — i.e. its rows are
the first LinkRecord per href, kept when broken, joined with the status of
the first matching BrokenResult — and on the spec's round-trip example it
emits exactly the first-seen row. -/
theorem C2_matcher_first_match_wins (broken_links : List (String × Nat))
    (all_website_links : List LinkRecord) :
    (match_broken_links broken_links all_website_links).rows =
      (firstPerHref [] all_website_links).filterMap
        (fun l => (findStatus l.href broken_links).map (rowOf l)) ∧
    (match_broken_links [("x", 404)] [⟨"p1", "x", "t1"⟩, ⟨"p2", "x", "t2"⟩]).rows
      = [⟨"p1", "x", "t1", 404⟩] :=
  ⟨match_rows_eq _ _, by decide⟩

/-- C9: report rows appear in the order in which their hrefs first occur in
the LinkRecord list (the row hrefs are the first-seen dedup of the link
hrefs filtered to the broken ones), and that sequence is unchanged by any
permutation of the broken-link list. -/
theorem C9_report_row_order (broken_links : List (String × Nat))
    (all_website_links : List LinkRecord) :
    ((match_broken_links broken_links all_website_links).rows.map ReportRow.brokenHref
      = (dedupFS [] (all_website_links.map LinkRecord.href)).filter
          (fun h => decide (h ∈ broken_links.map Prod.fst))) ∧
    ∀ broken₂ : List (String × Nat), broken₂.Perm broken_links →
      (match_broken_links broken₂ all_website_links).rows.map ReportRow.brokenHref
        = (match_broken_links broken_links all_website_links).rows.map ReportRow.brokenHref := by
  have hfor : ∀ bl : List (String × Nat),
      (match_broken_links bl all_website_links).rows.map ReportRow.brokenHref
        = (dedupFS [] (all_website_links.map LinkRecord.href)).filter
            (fun h => decide (h ∈ bl.map Prod.fst)) := by
    intro bl
    rw [rows_map_href_eq]
    refine List.filter_congr ?_
    intro h _
    exact Bool.coe_iff_coe.mp
      ((findStatus_isSome_iff bl h).trans decide_eq_true_iff.symm)
  refine ⟨hfor broken_links, ?_⟩
  intro b2 hperm
  rw [hfor b2, hfor broken_links]
  refine List.filter_congr ?_
  intro h _
  have hmem : h ∈ b2.map Prod.fst ↔ h ∈ broken_links.map Prod.fst :=
    (hperm.map Prod.fst).mem_iff
  exact Bool.coe_iff_coe.mp (by rw [decide_eq_true_iff, decide_eq_true_iff]; exact hmem)

/-- C10: a BrokenResult whose href matches no LinkRecord contributes no row,
row hrefs are pairwise distinct, and the number of rows equals the number of
distinct broken hrefs that occur as the href of at least one LinkRecord. -/
theorem C10_unmatched_broken_and_row_count (broken_links : List (String × Nat))
    (all_website_links : List LinkRecord) :
    ((match_broken_links broken_links all_website_links).rows.map ReportRow.brokenHref).Nodup ∧
    (∀ b ∈ broken_links, b.1 ∉ all_website_links.map LinkRecord.href →
      ∀ r ∈ (match_broken_links broken_links all_website_links).rows, r.brokenHref ≠ b.1) ∧
    (match_broken_links broken_links all_website_links).rows.length
      = ((broken_links.map Prod.fst).toFinset
          ∩ (all_website_links.map LinkRecord.href).toFinset).card := by
  refine ⟨?_, ?_, ?_⟩
  · rw [rows_map_href_eq]
    exact (dedupFS_nodup _ _).filter _
  · intro b _ hnot r hr heq
    have hmem : r.brokenHref
        ∈ (match_broken_links broken_links all_website_links).rows.map ReportRow.brokenHref :=
      List.mem_map_of_mem _ hr
    rw [rows_map_href_eq] at hmem
    have hded := List.mem_of_mem_filter hmem
    exact hnot (heq ▸ ((mem_dedupFS _ _ _).mp hded).1)
  · rw [show (match_broken_links broken_links all_website_links).rows.length
        = ((match_broken_links broken_links all_website_links).rows.map
            ReportRow.brokenHref).length from (List.length_map _ _).symm,
      rows_map_href_eq]
    have hnd : ((dedupFS [] (all_website_links.map LinkRecord.href)).filter
        (fun h => (findStatus h broken_links).isSome)).Nodup :=
      (dedupFS_nodup _ _).filter _
    rw [← List.toFinset_card_of_nodup hnd]
    congr 1
    ext x
    simp only [List.mem_toFinset, List.mem_filter, mem_dedupFS, Finset.mem_inter,
      findStatus_isSome_iff, List.not_mem_nil, not_false_iff, and_true]
    exact and_comm

/-- C4: under the prober's guarantee that recorded statuses are never 200,
every row of the report joins a BrokenResult (same href and status, non-200)
with a LinkRecord of the input (same source page, href and anchor text), and
the report's columns are exactly URL, Broken Link URL, Anchor Text, Status
Code. -/
theorem C4_report_invariant (broken_links : List (String × Nat))
    (all_website_links : List LinkRecord)
    (hb : ∀ b ∈ broken_links, b.2 ≠ 200) :
    (match_broken_links broken_links all_website_links).columns
      = ["URL", "Broken Link URL", "Anchor Text", "Status Code"] ∧
    ∀ r ∈ (match_broken_links broken_links all_website_links).rows,
      (∃ b ∈ broken_links, r.brokenHref = b.1 ∧ r.status = b.2 ∧ b.2 ≠ 200) ∧
      (∃ l ∈ all_website_links, r.url = l.page ∧ r.brokenHref = l.href ∧
        r.anchorText = l.text) := by
  refine ⟨rfl, ?_⟩
  intro r hr
  rw [match_rows_eq] at hr
  rcases List.mem_filterMap.mp hr with ⟨l, hl, hmap⟩
  cases hf : findStatus l.href broken_links with
  | none =>
    rw [hf] at hmap
    cases hmap
  | some st =>
    rw [hf] at hmap
    have hr2 : r = rowOf l st := (Option.some_inj.mp hmap).symm
    subst hr2
    rcases Option.map_eq_some'.mp hf with ⟨b, hfind, hsnd⟩
    have hbmem : b ∈ broken_links := List.mem_of_find?_eq_some hfind
    have hbeq : b.1 = l.href := by
      have := List.find?_some hfind
      simpa using this
    have hlmem : l ∈ all_website_links :=
      (firstPerHref_sublist all_website_links []).subset hl
    exact ⟨⟨b, hbmem, by simp [rowOf, hbeq], by simp [rowOf, hsnd], hb b hbmem⟩,
      ⟨l, hlmem, rfl, rfl, rfl⟩⟩

theorem C4_report_invariant_witness :
    (∀ b ∈ [("x", (404 : Nat))], b.2 ≠ 200) ∧
    ((match_broken_links [("x", 404)] [⟨"p", "x", "t"⟩]).columns
      = ["URL", "Broken Link URL", "Anchor Text", "Status Code"] ∧
     ∀ r ∈ (match_broken_links [("x", 404)] [⟨"p", "x", "t"⟩]).rows,
      (∃ b ∈ [("x", (404 : Nat))], r.brokenHref = b.1 ∧ r.status = b.2 ∧ b.2 ≠ 200) ∧
      (∃ l ∈ [(⟨"p", "x", "t"⟩ : LinkRecord)], r.url = l.page ∧ r.brokenHref = l.href ∧
        r.anchorText = l.text)) :=
  ⟨by decide, C4_report_invariant [("x", 404)] [⟨"p", "x", "t"⟩] (by decide)⟩

/-- Records that probing one href appends: empty for a live link, the
(href, status) pair for a non-200 response, the (href, 0) pair for a raised
request error. -/
def probeRecords (net : String → Option Nat) (href : String) : List (String × Nat) :=
  match net href with
  | none => [(href, 0)]
  | some status => if status = 200 then [] else [(href, status)]

theorem identify_broken_links_eq_flatMapP (net : String → Option Nat)
    (unique_links : List String) :
    identify_broken_links net unique_links = unique_links.flatMap (probeRecords net) :=
  identify_broken_links_eq_flatMap net unique_links

theorem C9_report_row_order_witness :
    ([("y", (500 : Nat)), ("x", 404)] : List (String × Nat)).Perm [("x", 404), ("y", 500)] ∧
    (match_broken_links [("y", 500), ("x", 404)]
        [⟨"p1", "x", "t1"⟩, ⟨"p2", "y", "t2"⟩]).rows.map ReportRow.brokenHref
      = (match_broken_links [("x", 404), ("y", 500)]
          [⟨"p1", "x", "t1"⟩, ⟨"p2", "y", "t2"⟩]).rows.map ReportRow.brokenHref :=
  ⟨by decide,
   (C9_report_row_order [("x", 404), ("y", 500)] [⟨"p1", "x", "t1"⟩, ⟨"p2", "y", "t2"⟩]).2
     [("y", 500), ("x", 404)] (by decide)⟩

theorem C10_unmatched_broken_and_row_count_witness :
    ("z", (404 : Nat)) ∈ [("x", (404 : Nat)), ("z", 404)] ∧
    "z" ∉ [(⟨"p", "x", "t"⟩ : LinkRecord)].map LinkRecord.href ∧
    (⟨"p", "x", "t", 404⟩ : ReportRow)
      ∈ (match_broken_links [("x", 404), ("z", 404)] [⟨"p", "x", "t"⟩]).rows ∧
    (⟨"p", "x", "t", 404⟩ : ReportRow).brokenHref ≠ "z" :=
  ⟨by decide, by decide, by decide,
   (C10_unmatched_broken_and_row_count [("x", 404), ("z", 404)] [⟨"p", "x", "t"⟩]).2.1
     ("z", 404) (by decide) (by decide) ⟨"p", "x", "t", 404⟩ (by decide)⟩

theorem findStatus_cons (h : String) (b : String × Nat) (L : List (String × Nat)) :
    findStatus h (b :: L) = if b.1 = h then some b.2 else findStatus h L := by
  by_cases hb : b.1 = h
  · have hfind : List.find? (fun x => x.1 == h) (b :: L) = some b :=
      List.find?_cons_of_pos _ (by simp [hb])
    simp [findStatus, hfind, hb]
  · have hfind : List.find? (fun x => x.1 == h) (b :: L)
        = List.find? (fun x => x.1 == h) L :=
      List.find?_cons_of_neg _ (by simp [hb])
    simp [findStatus, hfind, hb]

/-- Outcome of probing one href: `none` when the link is live (status 200),
otherwise the status that `identify_broken_links` records for it. -/
def probeStatus (net : String → Option Nat) (h : String) : Option Nat :=
  match net h with
  | none => some 0
  | some s => if s = 200 then none else some s

theorem findStatus_identify (net : String → Option Nat) (hs : List String) (h : String) :
    findStatus h (identify_broken_links net hs)
      = if h ∈ hs then probeStatus net h else none := by
  rw [identify_broken_links_eq_flatMapP]
  induction hs with
  | nil => simp [findStatus]
  | cons x rest ih =>
    rw [List.flatMap_cons]
    cases hn : net x with
    | none =>
      have hblock : probeRecords net x = [(x, 0)] := by
        simp [probeRecords, hn]
      rw [hblock, List.singleton_append, findStatus_cons]
      by_cases hxh : x = h
      · subst hxh
        simp [probeStatus, hn]
      · rw [if_neg hxh, ih]
        by_cases hm : h ∈ rest
        · rw [if_pos hm, if_pos (List.mem_cons_of_mem _ hm)]
        · rw [if_neg hm,
            if_neg (fun hc => (List.mem_cons.mp hc).elim (fun he => hxh he.symm) hm)]
    | some s =>
      by_cases hs2 : s = 200
      · subst hs2
        have hblock : probeRecords net x = [] := by
          simp [probeRecords, hn]
        rw [hblock, List.nil_append, ih]
        by_cases hxh : x = h
        · subst hxh
          by_cases hm : x ∈ rest
          · rw [if_pos hm, if_pos (List.mem_cons_of_mem _ hm)]
          · rw [if_neg hm, if_pos (List.mem_cons_self _ _)]
            simp [probeStatus, hn]
        · by_cases hm : h ∈ rest
          · rw [if_pos hm, if_pos (List.mem_cons_of_mem _ hm)]
          · rw [if_neg hm,
              if_neg (fun hc => (List.mem_cons.mp hc).elim (fun he => hxh he.symm) hm)]
      · have hblock : probeRecords net x = [(x, s)] := by
          simp [probeRecords, hn, hs2]
        rw [hblock, List.singleton_append, findStatus_cons]
        by_cases hxh : x = h
        · subst hxh
          simp [probeStatus, hn, hs2]
        · rw [if_neg hxh, ih]
          by_cases hm : h ∈ rest
          · rw [if_pos hm, if_pos (List.mem_cons_of_mem _ hm)]
          · rw [if_neg hm,
              if_neg (fun hc => (List.mem_cons.mp hc).elim (fun he => hxh he.symm) hm)]

theorem map_anchors_to_url_ok {ε : Type} (f : String → List Anchor) (urls : List String) :
    map_anchors_to_url (fun u => (Except.ok (f u) : Except ε (List Anchor))) urls
      = .ok (urls.map fun u => (u, f u)) := by
  induction urls with
  | nil => rfl
  | cons u us ih => simp [map_anchors_to_url, ih]

/-- Internal and external link inventories of a run whose fetches all
succeed, as a pure function of the page order. -/
def allLinksPure (domain_name : String) (f : String → List Anchor)
    (urls : List String) : List LinkRecord × List LinkRecord :=
  ((urls.map fun u => (create_link_lists domain_name u (f u)).1).flatten,
   (urls.map fun u => (create_link_lists domain_name u (f u)).2).flatten)

theorem foldl_pair_flatten (domain_name : String) (maps : List (String × List Anchor))
    (acc : List LinkRecord × List LinkRecord) :
    maps.foldl (fun acc p =>
        let r := create_link_lists domain_name p.1 p.2
        (acc.1 ++ r.1, acc.2 ++ r.2)) acc
      = (acc.1 ++ (maps.map fun p => (create_link_lists domain_name p.1 p.2).1).flatten,
         acc.2 ++ (maps.map fun p => (create_link_lists domain_name p.1 p.2).2).flatten) := by
  induction maps generalizing acc with
  | nil => simp
  | cons p ps ih =>
    rw [List.foldl_cons, ih]
    simp [List.append_assoc]

theorem get_all_links_ok {ε : Type} (domain_name : String) (f : String → List Anchor)
    (urls : List String) :
    get_all_links domain_name (fun u => (Except.ok (f u) : Except ε (List Anchor))) urls
      = .ok (allLinksPure domain_name f urls) := by
  rw [get_all_links, map_anchors_to_url_ok]
  simp only [foldl_pair_flatten, List.nil_append, List.map_map]
  rfl

theorem run_pipeline_ok {ε : Type} (domain_name : String) (f : String → List Anchor)
    (net : String → Option Nat) (urls : List String) :
    run_pipeline domain_name (fun u => (Except.ok (f u) : Except ε (List Anchor))) net urls
      = .ok (match_broken_links
          (identify_broken_links net
            (filter_unique_hrefs
              ((allLinksPure domain_name f urls).1 ++ (allLinksPure domain_name f urls).2)))
          ((allLinksPure domain_name f urls).1 ++ (allLinksPure domain_name f urls).2)) := by
  rw [run_pipeline, get_all_links_ok]

theorem allLinksPure_perm (domain_name : String) (f : String → List Anchor)
    (o₁ o₂ : List String) (h : o₁.Perm o₂) :
    ((allLinksPure domain_name f o₁).1 ++ (allLinksPure domain_name f o₁).2).Perm
      ((allLinksPure domain_name f o₂).1 ++ (allLinksPure domain_name f o₂).2) :=
  ((h.map _).flatten).append ((h.map _).flatten)

theorem filterMap_rows_map_pair (broken : List (String × Nat)) (L : List LinkRecord) :
    (L.filterMap (fun l => (findStatus l.href broken).map (rowOf l))).map
        (fun r => (r.brokenHref, r.status))
      = (L.map LinkRecord.href).filterMap
          (fun h => (findStatus h broken).map (fun st => (h, st))) := by
  induction L with
  | nil => rfl
  | cons l L ih =>
    cases hf : findStatus l.href broken with
    | none => simp [List.filterMap_cons, hf, ih]
    | some st => simp [List.filterMap_cons, hf, ih, rowOf]

theorem rows_pairs_eq (broken : List (String × Nat)) (links : List LinkRecord) :
    (match_broken_links broken links).rows.map (fun r => (r.brokenHref, r.status))
      = (dedupFS [] (links.map LinkRecord.href)).filterMap
          (fun h => (findStatus h broken).map (fun st => (h, st))) := by
  rw [match_rows_eq, filterMap_rows_map_pair, firstPerHref_map_href]

/-- Anchors served by each page in the C8 scenario: two pages both carrying
the same dead external link, with different anchor texts. -/
def fPure : String → List Anchor := fun u =>
  if u = "https://example.com/a" then [⟨some "http://dead.example/x", "t1"⟩]
  else if u = "https://example.com/b" then [⟨some "http://dead.example/x", "t2"⟩]
  else []

/-- Probe behaviour in the C8 scenario: the dead link returns 404, everything
else 200. -/
def netCx : String → Option Nat := fun u =>
  if u = "http://dead.example/x" then some 404 else some 200

/-- C8 counterexample: with collaborator behaviour fixed (`fPure`, `netCx`),
two materialisations of the deduplicated page set (Python set iteration order
is unspecified) yield reports whose row sets differ: the broken href is
attributed to a different source page. -/
theorem C8_counterexample :
    (["https://example.com/a", "https://example.com/b"] : List String).Perm
      ["https://example.com/b", "https://example.com/a"] ∧
    ∃ d₁ d₂ : PDFrame,
      run_pipeline "example.com" (fun u => (Except.ok (fPure u) : Except Unit (List Anchor)))
          netCx ["https://example.com/a", "https://example.com/b"] = .ok d₁ ∧
      run_pipeline "example.com" (fun u => (Except.ok (fPure u) : Except Unit (List Anchor)))
          netCx ["https://example.com/b", "https://example.com/a"] = .ok d₂ ∧
      d₁.rows.toFinset ≠ d₂.rows.toFinset := by
  refine ⟨by decide,
    ⟨⟨["URL", "Broken Link URL", "Anchor Text", "Status Code"],
      [⟨"https://example.com/a", "http://dead.example/x", "t1", 404⟩]⟩,
     ⟨["URL", "Broken Link URL", "Anchor Text", "Status Code"],
      [⟨"https://example.com/b", "http://dead.example/x", "t2", 404⟩]⟩,
     rfl, rfl, by decide⟩⟩

/-- C8 (amended): with collaborator behaviour held constant, the pipeline is
a pure function of the page-set iteration order; any two materialisations of
the deduplicated page set produce successful reports with the same columns
and the same set of (broken href, status code) pairs — only the source-page
and anchor-text attribution of a row can depend on the order. -/
theorem C8_pipeline_deterministic_up_to_set_order {ε : Type} (domain_name : String)
    (f : String → List Anchor) (net : String → Option Nat) (o₁ o₂ : List String)
    (hperm : o₁.Perm o₂) :
    ∃ d₁ d₂ : PDFrame,
      run_pipeline domain_name (fun u => (Except.ok (f u) : Except ε (List Anchor)))
          net o₁ = .ok d₁ ∧
      run_pipeline domain_name (fun u => (Except.ok (f u) : Except ε (List Anchor)))
          net o₂ = .ok d₂ ∧
      d₁.columns = d₂.columns ∧
      (d₁.rows.map fun r => (r.brokenHref, r.status)).toFinset
        = (d₂.rows.map fun r => (r.brokenHref, r.status)).toFinset := by
  refine ⟨_, _, run_pipeline_ok domain_name f net o₁, run_pipeline_ok domain_name f net o₂,
    rfl, ?_⟩
  have hL : ((allLinksPure domain_name f o₁).1 ++ (allLinksPure domain_name f o₁).2).Perm
      ((allLinksPure domain_name f o₂).1 ++ (allLinksPure domain_name f o₂).2) :=
    allLinksPure_perm domain_name f o₁ o₂ hperm
  have hpq : ∀ L : List LinkRecord,
      (match_broken_links (identify_broken_links net (filter_unique_hrefs L)) L).rows.map
          (fun r => (r.brokenHref, r.status))
        = (dedupFS [] (L.map LinkRecord.href)).filterMap
            (fun h => (probeStatus net h).map (fun st => (h, st))) := by
    intro L
    rw [rows_pairs_eq]
    refine List.filterMap_congr ?_
    intro h hh
    have hmem : h ∈ L.map LinkRecord.href := ((mem_dedupFS _ _ _).mp hh).1
    have hhrefs : h ∈ filter_unique_hrefs L := by
      rw [filter_unique_hrefs_eq, mem_dedupFS]
      exact ⟨hmem, by simp⟩
    rw [findStatus_identify, if_pos hhrefs]
  rw [hpq, hpq]
  have hD : (dedupFS []
        (((allLinksPure domain_name f o₁).1 ++ (allLinksPure domain_name f o₁).2).map
          LinkRecord.href)).Perm
      (dedupFS []
        (((allLinksPure domain_name f o₂).1 ++ (allLinksPure domain_name f o₂).2).map
          LinkRecord.href)) := by
    refine (List.perm_ext_iff_of_nodup (dedupFS_nodup _ _) (dedupFS_nodup _ _)).mpr ?_
    intro x
    rw [mem_dedupFS, mem_dedupFS]
    have hx := (hL.map LinkRecord.href).mem_iff (a := x)
    constructor
    · rintro ⟨h1, h2⟩
      exact ⟨hx.mp h1, h2⟩
    · rintro ⟨h1, h2⟩
      exact ⟨hx.mpr h1, h2⟩
  have hFM := hD.filterMap (fun h => (probeStatus net h).map (fun st => (h, st)))
  ext x
  rw [List.mem_toFinset, List.mem_toFinset]
  exact hFM.mem_iff

theorem C8_pipeline_deterministic_up_to_set_order_witness :
    (["https://example.com/a", "https://example.com/b"] : List String).Perm
      ["https://example.com/b", "https://example.com/a"] ∧
    ∃ d₁ d₂ : PDFrame,
      run_pipeline "example.com" (fun u => (Except.ok (fPure u) : Except Unit (List Anchor)))
          netCx ["https://example.com/a", "https://example.com/b"] = .ok d₁ ∧
      run_pipeline "example.com" (fun u => (Except.ok (fPure u) : Except Unit (List Anchor)))
          netCx ["https://example.com/b", "https://example.com/a"] = .ok d₂ ∧
      d₁.columns = d₂.columns ∧
      (d₁.rows.map fun r => (r.brokenHref, r.status)).toFinset
        = (d₂.rows.map fun r => (r.brokenHref, r.status)).toFinset :=
  ⟨by decide,
   C8_pipeline_deterministic_up_to_set_order "example.com" fPure netCx
     ["https://example.com/a", "https://example.com/b"]
     ["https://example.com/b", "https://example.com/a"] (by decide)⟩

end LinksCheck
